import Mathlib

/-!
# Formal model of the mushroom_rl LQR/LQG solver

A shallow embedding of src/mushroom_rl/solvers/lqr.py over exact rational
matrices.  Matrices are Mathlib matrices over ℚ; the numpy calls
np.linalg.inv and np.linalg.solve, which raise on a singular input, are
modelled as Option-valued operations that return none exactly when the
determinant of the matrix to be inverted is zero, and otherwise produce the
exact inverse (resp. the exact solution of the linear system).

The row-major flattening performed by numpy reshape(-1) maps entry (i, j) of
an n×n matrix to flat index i*n + j; here flat vectors are indexed by the
pair type Fin n × Fin n under the same lexicographic correspondence, and
np.kron is Matrix.kronecker, whose block layout agrees with numpy under that
correspondence.  The stacked state-action vector of np.block is indexed by
the sum type Fin n ⊕ Fin m.
-/

namespace LqrSolver

open Matrix

/-- Problem descriptor: the matrices A, B, Q, R and the discount factor
gamma that _parse_lqr reads off the LQR environment object. -/
structure LQR (n m : ℕ) where
  A : Matrix (Fin n) (Fin n) ℚ
  B : Matrix (Fin n) (Fin m) ℚ
  Q : Matrix (Fin n) (Fin n) ℚ
  R : Matrix (Fin m) (Fin m) ℚ
  gamma : ℚ

variable {n m : ℕ}

/-- Exact inverse of a square rational matrix, as computed by np.linalg.inv
on a nonsingular input: the determinant-scaled adjugate. -/
def matInv {ι : Type} [Fintype ι] [DecidableEq ι] (A : Matrix ι ι ℚ) : Matrix ι ι ℚ :=
  A.det⁻¹ • A.adjugate

theorem matInv_eq_inv {ι : Type} [Fintype ι] [DecidableEq ι] (A : Matrix ι ι ℚ) :
    matInv A = A⁻¹ := by
  rw [Matrix.inv_def, Ring.inverse_eq_inv']
  rfl

/-- Row-major flattening of an n×n matrix (numpy reshape(-1)); the flat
position i*n + j is represented by the pair (i, j). -/
def vecM (P : Matrix (Fin n) (Fin n) ℚ) : Fin n × Fin n → ℚ := fun p => P p.1 p.2

/-- Inverse of vecM (numpy reshape back to the shape of Q). -/
def unvec (v : Fin n × Fin n → ℚ) : Matrix (Fin n) (Fin n) ℚ :=
  Matrix.of fun i j => v (i, j)

/-- Translation of _parse_lqr: plain attribute access, no validation. -/
def parse_lqr (lqr : LQR n m) :
    Matrix (Fin n) (Fin n) ℚ × Matrix (Fin n) (Fin m) ℚ × Matrix (Fin n) (Fin n) ℚ ×
      Matrix (Fin m) (Fin m) ℚ × ℚ :=
  (lqr.A, lqr.B, lqr.Q, lqr.R, lqr.gamma)

/-- Translation of _compute_riccati_rhs. -/
def compute_riccati_rhs (A : Matrix (Fin n) (Fin n) ℚ) (B : Matrix (Fin n) (Fin m) ℚ)
    (Q : Matrix (Fin n) (Fin n) ℚ) (R : Matrix (Fin m) (Fin m) ℚ) (gamma : ℚ)
    (K : Matrix (Fin m) (Fin n) ℚ) (P : Matrix (Fin n) (Fin n) ℚ) :
    Matrix (Fin n) (Fin n) ℚ :=
  Q + gamma • (Aᵀ * P * A - Kᵀ * Bᵀ * P * A - Aᵀ * P * B * K + Kᵀ * Bᵀ * P * B * K) +
    Kᵀ * R * K

/-- The value gamma * inv(R + gamma * Bᵀ P B) @ Bᵀ @ P @ A that
_compute_riccati_gain produces when the inverse exists. -/
def riccati_gain_val (P : Matrix (Fin n) (Fin n) ℚ) (A : Matrix (Fin n) (Fin n) ℚ)
    (B : Matrix (Fin n) (Fin m) ℚ) (R : Matrix (Fin m) (Fin m) ℚ) (gamma : ℚ) :
    Matrix (Fin m) (Fin n) ℚ :=
  gamma • (matInv (R + gamma • (Bᵀ * P * B)) * Bᵀ * P * A)

/-- Translation of _compute_riccati_gain; np.linalg.inv raises exactly when
R + gamma * Bᵀ P B is singular. -/
def compute_riccati_gain (P : Matrix (Fin n) (Fin n) ℚ) (A : Matrix (Fin n) (Fin n) ℚ)
    (B : Matrix (Fin n) (Fin m) ℚ) (R : Matrix (Fin m) (Fin m) ℚ) (gamma : ℚ) :
    Option (Matrix (Fin m) (Fin n) ℚ) :=
  if (R + gamma • (Bᵀ * P * B)).det = 0 then none
  else some (riccati_gain_val P A B R gamma)

/-- The while loop of solve_lqr_linear, carrying the pair (P, K); the state
after zero iterations is P = I together with the gain computed from it. -/
def riccati_loop (A : Matrix (Fin n) (Fin n) ℚ) (B : Matrix (Fin n) (Fin m) ℚ)
    (Q : Matrix (Fin n) (Fin n) ℚ) (R : Matrix (Fin m) (Fin m) ℚ) (gamma : ℚ) :
    ℕ → Option (Matrix (Fin n) (Fin n) ℚ × Matrix (Fin m) (Fin n) ℚ)
  | 0 => (compute_riccati_gain 1 A B R gamma).map fun K => (1, K)
  | k + 1 =>
    (riccati_loop A B Q R gamma k).bind fun PK =>
      (compute_riccati_gain (compute_riccati_rhs A B Q R gamma PK.2 PK.1) A B R gamma).map
        fun K => (compute_riccati_rhs A B Q R gamma PK.2 PK.1, K)

/-- Translation of solve_lqr_linear: P starts at the identity, the loop body
runs exactly max_iterations times, and the gain computed from the final P is
returned. -/
def solve_lqr_linear (lqr : LQR n m) (max_iterations : ℕ) :
    Option (Matrix (Fin m) (Fin n) ℚ) :=
  (riccati_loop lqr.A lqr.B lqr.Q lqr.R lqr.gamma max_iterations).map Prod.snd

/-- The P iterates of the solve_lqr_linear loop: P starts at the identity and
each step applies the Riccati right-hand side at the gain computed from the
current P (the value path of the loop when every inverse exists). -/
def riccatiP (lqr : LQR n m) : ℕ → Matrix (Fin n) (Fin n) ℚ
  | 0 => 1
  | k + 1 =>
    compute_riccati_rhs lqr.A lqr.B lqr.Q lqr.R lqr.gamma
      (riccati_gain_val (riccatiP lqr k) lqr.A lqr.B lqr.R lqr.gamma) (riccatiP lqr k)

/-- Translation of _compute_lqr_intermediate_results: L = Q + Kᵀ R K and the
vectorized system matrix M built from Kronecker products. -/
def compute_lqr_intermediate_results (K : Matrix (Fin m) (Fin n) ℚ)
    (A : Matrix (Fin n) (Fin n) ℚ) (B : Matrix (Fin n) (Fin m) ℚ)
    (Q : Matrix (Fin n) (Fin n) ℚ) (R : Matrix (Fin m) (Fin m) ℚ) (gamma : ℚ) :
    Matrix (Fin n) (Fin n) ℚ × Matrix (Fin n × Fin n) (Fin n × Fin n) ℚ :=
  (Q + Kᵀ * R * K,
    1 - gamma •
      (Matrix.kronecker Aᵀ Aᵀ - Matrix.kronecker Aᵀ (Kᵀ * Bᵀ) -
        Matrix.kronecker (Kᵀ * Bᵀ) Aᵀ + Matrix.kronecker (Kᵀ * Bᵀ) (Kᵀ * Bᵀ)))

/-- Translation of compute_lqr_P: solve M vec(P) = vec(L) and reshape;
np.linalg.solve raises exactly when M is singular. -/
def compute_lqr_P (lqr : LQR n m) (K : Matrix (Fin m) (Fin n) ℚ) :
    Option (Matrix (Fin n) (Fin n) ℚ) :=
  let LM := compute_lqr_intermediate_results K lqr.A lqr.B lqr.Q lqr.R lqr.gamma
  if LM.2.det = 0 then none
  else some (unvec ((matInv LM.2).mulVec (vecM LM.1)))

/-- Translation of compute_lqr_V. -/
def compute_lqr_V (x : Fin n → ℚ) (lqr : LQR n m) (K : Matrix (Fin m) (Fin n) ℚ) :
    Option ℚ :=
  (compute_lqr_P lqr K).map fun P => -(x ⬝ᵥ P.mulVec x)

/-- Translation of compute_lqg_V. -/
def compute_lqg_V (x : Fin n → ℚ) (lqr : LQR n m) (K : Matrix (Fin m) (Fin n) ℚ)
    (Sg : Matrix (Fin m) (Fin m) ℚ) : Option ℚ :=
  (compute_lqr_P lqr K).map fun P =>
    -(x ⬝ᵥ P.mulVec x) -
      (Sg * (lqr.R + lqr.gamma • (lqr.Bᵀ * P * lqr.B))).trace / (1 - lqr.gamma)

/-- Translation of _compute_lqr_Q_matrix (np.block becomes fromBlocks). -/
def compute_lqr_Q_matrix (lqr : LQR n m) (K : Matrix (Fin m) (Fin n) ℚ) :
    Option (Matrix (Fin n ⊕ Fin m) (Fin n ⊕ Fin m) ℚ) :=
  (compute_lqr_P lqr K).map fun P =>
    Matrix.fromBlocks (lqr.Q + lqr.gamma • (lqr.Aᵀ * P * lqr.A))
      (lqr.gamma • (lqr.Aᵀ * P * lqr.B)) (lqr.gamma • (lqr.Bᵀ * P * lqr.A))
      (lqr.R + lqr.gamma • (lqr.Bᵀ * P * lqr.B))

/-- Translation of compute_lqr_Q on a stacked state-action vector. -/
def compute_lqr_Q (z : Fin n ⊕ Fin m → ℚ) (lqr : LQR n m)
    (K : Matrix (Fin m) (Fin n) ℚ) : Option ℚ :=
  (compute_lqr_Q_matrix lqr K).map fun M => -(z ⬝ᵥ M.mulVec z)

/-- Translation of _compute_lqg_Q_additional_term. -/
def compute_lqg_Q_additional_term (lqr : LQR n m) (K : Matrix (Fin m) (Fin n) ℚ)
    (Sg : Matrix (Fin m) (Fin m) ℚ) : Option ℚ :=
  (compute_lqr_P lqr K).map fun P =>
    lqr.gamma / (1 - lqr.gamma) *
      (Sg * (lqr.R + lqr.gamma • (lqr.Bᵀ * P * lqr.B))).trace

/-- Translation of compute_lqg_Q. -/
def compute_lqg_Q (z : Fin n ⊕ Fin m → ℚ) (lqr : LQR n m)
    (K : Matrix (Fin m) (Fin n) ℚ) (Sg : Matrix (Fin m) (Fin m) ℚ) : Option ℚ :=
  (compute_lqr_Q_matrix lqr K).bind fun M =>
    (compute_lqg_Q_additional_term lqr K Sg).map fun b => -(z ⬝ᵥ M.mulVec z) - b

/-- Translation of _compute_lqr_intermediate_results_diff: the one-hot
perturbation dKi for the row-major entry index i (represented as the pair
(i.1, i.2)), and the derivatives dL, dM. -/
def compute_lqr_intermediate_results_diff (K : Matrix (Fin m) (Fin n) ℚ)
    (A : Matrix (Fin n) (Fin n) ℚ) (B : Matrix (Fin n) (Fin m) ℚ)
    (R : Matrix (Fin m) (Fin m) ℚ) (gamma : ℚ) (i : Fin m × Fin n) :
    Matrix (Fin n) (Fin n) ℚ × Matrix (Fin n × Fin n) (Fin n × Fin n) ℚ :=
  let dKi : Matrix (Fin m) (Fin n) ℚ :=
    Matrix.of fun p q => if p = i.1 ∧ q = i.2 then 1 else 0
  (dKiᵀ * R * K + Kᵀ * R * dKi,
    gamma •
      (Matrix.kronecker Aᵀ (dKiᵀ * Bᵀ) + Matrix.kronecker (dKiᵀ * Bᵀ) Aᵀ -
        Matrix.kronecker (dKiᵀ * Bᵀ) (Kᵀ * Bᵀ) -
        Matrix.kronecker (Kᵀ * Bᵀ) (dKiᵀ * Bᵀ)))

/-- Translation of compute_lqg_gradient: one derivative entry per entry of K
(row-major pairs), computed from Minv = inv(M) and the per-entry dL, dM;
np.linalg.inv and np.linalg.solve both raise exactly when M is singular. -/
def compute_lqg_gradient (x : Fin n → ℚ) (lqr : LQR n m)
    (K : Matrix (Fin m) (Fin n) ℚ) (Sg : Matrix (Fin m) (Fin m) ℚ) :
    Option (Fin m × Fin n → ℚ) :=
  let LM := compute_lqr_intermediate_results K lqr.A lqr.B lqr.Q lqr.R lqr.gamma
  if LM.2.det = 0 then none
  else
    some fun i =>
      let dLM := compute_lqr_intermediate_results_diff K lqr.A lqr.B lqr.R lqr.gamma i
      let dPi :=
        unvec ((-matInv LM.2 * dLM.2 * matInv LM.2).mulVec (vecM LM.1) +
          (matInv LM.2).mulVec (vecM dLM.1));
      -((x ⬝ᵥ dPi.mulVec x) +
        lqr.gamma * (Sg * (lqr.Bᵀ * dPi * lqr.B)).trace / (1 - lqr.gamma))

/-! ## Dynamic-shape layer for the entry-checking claim

The typed embedding above fixes the dimensions in the types, so it cannot
express a call on dimensionally inconsistent matrices.  The following layer
mirrors the dynamic shape behaviour of the numpy code: matrices carry their
dimensions at run time, a matrix product or inverse on incompatible operands
raises (none), and _parse_lqr performs no checking at all. -/

/-- A matrix with run-time dimensions (a dynamically shaped numpy array). -/
structure DMat where
  rows : ℕ
  cols : ℕ
  data : List (List ℚ)

/-- Entry access, 0 outside the stored data. -/
def DMat.entry (A : DMat) (i j : ℕ) : ℚ := (A.data.getD i []).getD j 0

/-- np.eye. -/
def dEye (k : ℕ) : DMat :=
  ⟨k, k, (List.range k).map fun i => (List.range k).map fun j => if i = j then 1 else 0⟩

/-- numpy .T. -/
def DMat.T (A : DMat) : DMat :=
  ⟨A.cols, A.rows,
    (List.range A.cols).map fun i => (List.range A.rows).map fun j => A.entry j i⟩

/-- numpy @: raises (none) when the inner dimensions disagree. -/
def dMul (A B : DMat) : Option DMat :=
  if A.cols = B.rows then
    some ⟨A.rows, B.cols,
      (List.range A.rows).map fun i => (List.range B.cols).map fun j =>
        (((List.range A.cols).map fun k => A.entry i k * B.entry k j).foldr (· + ·) 0)⟩
  else none

/-- Elementwise sum; raises (none) when the shapes disagree (broadcasting of
equal shapes is the only case the solver reaches). -/
def dAdd (A B : DMat) : Option DMat :=
  if A.rows = B.rows ∧ A.cols = B.cols then
    some ⟨A.rows, A.cols,
      (List.range A.rows).map fun i => (List.range A.cols).map fun j =>
        A.entry i j + B.entry i j⟩
  else none

/-- Elementwise difference; raises (none) when the shapes disagree. -/
def dSub (A B : DMat) : Option DMat :=
  if A.rows = B.rows ∧ A.cols = B.cols then
    some ⟨A.rows, A.cols,
      (List.range A.rows).map fun i => (List.range A.cols).map fun j =>
        A.entry i j - B.entry i j⟩
  else none

/-- Scalar multiple (always defined). -/
def dSMul (c : ℚ) (A : DMat) : DMat :=
  ⟨A.rows, A.cols,
    (List.range A.rows).map fun i => (List.range A.cols).map fun j => c * A.entry i j⟩

/-- np.linalg.inv: raises (none) on a non-square or singular input. -/
def dInv (A : DMat) : Option DMat :=
  if A.rows = A.cols then
    if (Matrix.of fun i j : Fin A.rows => A.entry i.1 j.1).det = 0 then none
    else
      some ⟨A.rows, A.rows,
        (List.finRange A.rows).map fun i => (List.finRange A.rows).map fun j =>
          matInv (Matrix.of fun a b : Fin A.rows => A.entry a.1 b.1) i j⟩
  else none

/-- A problem descriptor with run-time dimensions. -/
structure LQRDyn where
  A : DMat
  B : DMat
  Q : DMat
  R : DMat
  gamma : ℚ

/-- Translation of _parse_lqr over the dynamic layer: attribute access and
nothing else; no dimension check of any kind happens here. -/
def parse_lqr_dyn (lqr : LQRDyn) : DMat × DMat × DMat × DMat × ℚ :=
  (lqr.A, lqr.B, lqr.Q, lqr.R, lqr.gamma)

/-- Translation of _compute_riccati_gain over the dynamic layer, in numpy
evaluation order. -/
def compute_riccati_gain_dyn (P A B R : DMat) (gamma : ℚ) : Option DMat :=
  (dMul (DMat.T B) P).bind fun BtP =>
    (dMul BtP B).bind fun BtPB =>
      (dAdd R (dSMul gamma BtPB)).bind fun G =>
        (dInv G).bind fun Ginv =>
          (dMul Ginv (DMat.T B)).bind fun t1 =>
            (dMul t1 P).bind fun t2 =>
              (dMul t2 A).map fun t3 => dSMul gamma t3

/-- Translation of _compute_riccati_rhs over the dynamic layer, in numpy
evaluation order. -/
def compute_riccati_rhs_dyn (A B Q R : DMat) (gamma : ℚ) (K P : DMat) : Option DMat :=
  (dMul (DMat.T A) P).bind fun AtP =>
    (dMul AtP A).bind fun AtPA =>
      (dMul (DMat.T K) (DMat.T B)).bind fun KtBt =>
        (dMul KtBt P).bind fun KtBtP =>
          (dMul KtBtP A).bind fun KtBtPA =>
            (dMul AtP B).bind fun AtPB =>
              (dMul AtPB K).bind fun AtPBK =>
                (dMul KtBtP B).bind fun KtBtPB =>
                  (dMul KtBtPB K).bind fun KtBtPBK =>
                    (dSub AtPA KtBtPA).bind fun s1 =>
                      (dSub s1 AtPBK).bind fun s2 =>
                        (dAdd s2 KtBtPBK).bind fun s3 =>
                          (dAdd Q (dSMul gamma s3)).bind fun s4 =>
                            (dMul (DMat.T K) R).bind fun KtR =>
                              (dMul KtR K).bind fun KtRK => dAdd s4 KtRK

/-- The solve_lqr_linear loop over the dynamic layer. -/
def riccati_loop_dyn (A B Q R : DMat) (gamma : ℚ) : ℕ → Option (DMat × DMat)
  | 0 => (compute_riccati_gain_dyn (dEye Q.rows) A B R gamma).map fun K => (dEye Q.rows, K)
  | k + 1 =>
    (riccati_loop_dyn A B Q R gamma k).bind fun PK =>
      (compute_riccati_rhs_dyn A B Q R gamma PK.2 PK.1).bind fun Pn =>
        (compute_riccati_gain_dyn Pn A B R gamma).map fun K => (Pn, K)

/-- Translation of solve_lqr_linear over the dynamic layer: parse the
problem (unchecked), initialize P = eye(Q.shape[0]), iterate. -/
def solve_lqr_linear_dyn (lqr : LQRDyn) (max_iterations : ℕ) : Option DMat :=
  (riccati_loop_dyn lqr.A lqr.B lqr.Q lqr.R lqr.gamma max_iterations).map Prod.snd

/-- A dimensionally inconsistent problem: A and Q are 1×1 but B is 2×1
(for consistency B must have as many rows as A). -/
def badLqr : LQRDyn :=
  ⟨⟨1, 1, [[1]]⟩, ⟨2, 1, [[1], [1]]⟩, ⟨1, 1, [[1]]⟩, ⟨1, 1, [[1]]⟩, 1 / 2⟩

/-- Stated from the specification of the gradient, for comparison with
compute_lqg_gradient: the i-th component (row-major entry order of K, the
pair (i.1, i.2)) is the negation of (xᵀ dP x) + gamma tr(Sigma Bᵀ dP B)/(1−gamma),
where dP is recovered from vec(dP) = −M⁻¹ dM M⁻¹ vec(L) + M⁻¹ vec(dL) with
the one-hot direction dK = Matrix.stdBasisMatrix i.1 i.2 1,
dL = dKᵀ R K + Kᵀ R dK and
dM = gamma (Aᵀ⊗dKᵀBᵀ + dKᵀBᵀ⊗Aᵀ − dKᵀBᵀ⊗KᵀBᵀ − KᵀBᵀ⊗dKᵀBᵀ); matInv is the
matrix inverse (it agrees with the Mathlib inverse by matInv_eq_inv). -/
def grad_component_spec (x : Fin n → ℚ) (lqr : LQR n m) (K : Matrix (Fin m) (Fin n) ℚ)
    (Sg : Matrix (Fin m) (Fin m) ℚ) (i : Fin m × Fin n) : ℚ :=
  let dK : Matrix (Fin m) (Fin n) ℚ := Matrix.stdBasisMatrix i.1 i.2 1
  let L := (compute_lqr_intermediate_results K lqr.A lqr.B lqr.Q lqr.R lqr.gamma).1
  let M := (compute_lqr_intermediate_results K lqr.A lqr.B lqr.Q lqr.R lqr.gamma).2
  let dL := dKᵀ * lqr.R * K + Kᵀ * lqr.R * dK
  let dM := lqr.gamma •
    (Matrix.kronecker lqr.Aᵀ (dKᵀ * lqr.Bᵀ) + Matrix.kronecker (dKᵀ * lqr.Bᵀ) lqr.Aᵀ -
      Matrix.kronecker (dKᵀ * lqr.Bᵀ) (Kᵀ * lqr.Bᵀ) -
      Matrix.kronecker (Kᵀ * lqr.Bᵀ) (dKᵀ * lqr.Bᵀ))
  let dP := unvec (-((matInv M * dM * matInv M).mulVec (vecM L)) +
    (matInv M).mulVec (vecM dL));
  -((x ⬝ᵥ dP.mulVec x) + lqr.gamma * (Sg * (lqr.Bᵀ * dP * lqr.B)).trace / (1 - lqr.gamma))

/-- The value of the gradient of the concrete scalar instance. -/
def gradEx : Fin 1 × Fin 1 → ℚ := fun _ => 8

/-! ## Concrete one-dimensional instances used to exercise the theorems -/

/-- A concrete scalar problem: A = B = Q = R = [[1]], gamma = 1/2. -/
def lqrEx : LQR 1 1 := ⟨!![1], !![1], !![1], !![1], 1 / 2⟩

/-- A concrete gain matrix (the zero policy). -/
def Kex : Matrix (Fin 1) (Fin 1) ℚ := !![0]

/-- The value matrix of the zero policy for lqrEx. -/
def Pex : Matrix (Fin 1) (Fin 1) ℚ := !![2]

/-! ## Basic lemmas about the vectorization -/

theorem unvec_vecM (X : Matrix (Fin n) (Fin n) ℚ) : unvec (vecM X) = X := rfl

theorem vecM_unvec (v : Fin n × Fin n → ℚ) : vecM (unvec v) = v := by
  funext p
  cases p
  rfl

theorem vecM_inj {X Y : Matrix (Fin n) (Fin n) ℚ} (h : vecM X = vecM Y) : X = Y := by
  ext i j
  exact congrFun h (i, j)

/-- Action of a Kronecker product on a row-major flattened matrix: the
standard vec identity vec(C X Dᵀ) = (C ⊗ D) vec(X). -/
theorem kron_mulVec_vec (C D X : Matrix (Fin n) (Fin n) ℚ) :
    (Matrix.kronecker C D).mulVec (vecM X) = vecM (C * X * Dᵀ) := by
  funext p
  obtain ⟨i, k⟩ := p
  simp only [Matrix.mulVec, Matrix.dotProduct, vecM, Matrix.kronecker,
    Matrix.kroneckerMap_apply, Matrix.mul_apply, Matrix.transpose_apply,
    Fintype.sum_prod_type, Finset.sum_mul, Finset.mul_sum]
  rw [Finset.sum_comm]
  refine Finset.sum_congr rfl fun l _ => Finset.sum_congr rfl fun j _ => by ring

/-- The system matrix M of _compute_lqr_intermediate_results acts on a
flattened X as the Lyapunov operator X ↦ X − gamma (A−BK)ᵀ X (A−BK). -/
theorem intermediate_M_mulVec (K : Matrix (Fin m) (Fin n) ℚ)
    (A : Matrix (Fin n) (Fin n) ℚ) (B : Matrix (Fin n) (Fin m) ℚ)
    (Q : Matrix (Fin n) (Fin n) ℚ) (R : Matrix (Fin m) (Fin m) ℚ) (gamma : ℚ)
    (X : Matrix (Fin n) (Fin n) ℚ) :
    (compute_lqr_intermediate_results K A B Q R gamma).2.mulVec (vecM X) =
      vecM (X - gamma • ((A - B * K)ᵀ * X * (A - B * K))) := by
  have h1 := kron_mulVec_vec Aᵀ Aᵀ X
  have h2 := kron_mulVec_vec Aᵀ (Kᵀ * Bᵀ) X
  have h3 := kron_mulVec_vec (Kᵀ * Bᵀ) Aᵀ X
  have h4 := kron_mulVec_vec (Kᵀ * Bᵀ) (Kᵀ * Bᵀ) X
  rw [Matrix.transpose_transpose] at h1 h3
  rw [Matrix.transpose_mul, Matrix.transpose_transpose, Matrix.transpose_transpose] at h2 h4
  have key : X - gamma • (Aᵀ * X * A - Aᵀ * X * (B * K) - Kᵀ * Bᵀ * X * A +
      Kᵀ * Bᵀ * X * (B * K)) =
      X - gamma • ((A - B * K)ᵀ * X * (A - B * K)) := by
    rw [Matrix.transpose_sub, Matrix.transpose_mul]
    congr 1
    congr 1
    noncomm_ring
  calc (compute_lqr_intermediate_results K A B Q R gamma).2.mulVec (vecM X)
      = vecM X - gamma • ((Matrix.kronecker Aᵀ Aᵀ).mulVec (vecM X) -
          (Matrix.kronecker Aᵀ (Kᵀ * Bᵀ)).mulVec (vecM X) -
          (Matrix.kronecker (Kᵀ * Bᵀ) Aᵀ).mulVec (vecM X) +
          (Matrix.kronecker (Kᵀ * Bᵀ) (Kᵀ * Bᵀ)).mulVec (vecM X)) := by
        simp only [compute_lqr_intermediate_results, Matrix.sub_mulVec,
          Matrix.add_mulVec, Matrix.one_mulVec, Matrix.smul_mulVec_assoc]
    _ = vecM (X - gamma • (Aᵀ * X * A - Aᵀ * X * (B * K) - Kᵀ * Bᵀ * X * A +
          Kᵀ * Bᵀ * X * (B * K))) := by
        rw [h1, h2, h3, h4]
        funext p
        simp [vecM, Matrix.sub_apply, Matrix.add_apply, Matrix.smul_apply, smul_eq_mul]
    _ = vecM (X - gamma • ((A - B * K)ᵀ * X * (A - B * K))) := by rw [key]

/-- An injective matrix-vector multiplication for a matrix with nonzero
determinant. -/
theorem mulVec_inj_of_det_ne_zero {ι : Type} [Fintype ι] [DecidableEq ι]
    {M : Matrix ι ι ℚ} (h : M.det ≠ 0) {u v : ι → ℚ}
    (huv : M.mulVec u = M.mulVec v) : u = v := by
  have hu : IsUnit M.det := isUnit_iff_ne_zero.mpr h
  have h1 : M⁻¹.mulVec (M.mulVec u) = M⁻¹.mulVec (M.mulVec v) := by rw [huv]
  rwa [Matrix.mulVec_mulVec, Matrix.mulVec_mulVec, Matrix.nonsing_inv_mul M hu,
    Matrix.one_mulVec, Matrix.one_mulVec] at h1

/-- The P produced by compute_lqr_P solves the vectorized linear system. -/
theorem compute_lqr_P_solves (lqr : LQR n m) (K : Matrix (Fin m) (Fin n) ℚ)
    (hdet : (compute_lqr_intermediate_results K lqr.A lqr.B lqr.Q lqr.R lqr.gamma).2.det ≠ 0)
    (P : Matrix (Fin n) (Fin n) ℚ) (hP : compute_lqr_P lqr K = some P) :
    (compute_lqr_intermediate_results K lqr.A lqr.B lqr.Q lqr.R lqr.gamma).2.mulVec (vecM P) =
      vecM (compute_lqr_intermediate_results K lqr.A lqr.B lqr.Q lqr.R lqr.gamma).1 := by
  set LM := compute_lqr_intermediate_results K lqr.A lqr.B lqr.Q lqr.R lqr.gamma with hLM
  have hu : IsUnit LM.2.det := isUnit_iff_ne_zero.mpr hdet
  rw [compute_lqr_P] at hP
  rw [← hLM] at hP
  rw [if_neg hdet] at hP
  have hPval : P = unvec ((matInv LM.2).mulVec (vecM LM.1)) := (Option.some_inj.mp hP).symm
  rw [hPval, vecM_unvec, Matrix.mulVec_mulVec, matInv_eq_inv,
    Matrix.mul_nonsing_inv LM.2 hu, Matrix.one_mulVec]

/-- Any P returned by compute_lqr_P under a nonsingular M satisfies the
discounted Lyapunov equation (shared kernel of several results). -/
theorem lqr_P_fixed_point (lqr : LQR n m) (K : Matrix (Fin m) (Fin n) ℚ)
    (hdet : (compute_lqr_intermediate_results K lqr.A lqr.B lqr.Q lqr.R lqr.gamma).2.det ≠ 0)
    (P : Matrix (Fin n) (Fin n) ℚ) (hP : compute_lqr_P lqr K = some P) :
    P = lqr.Q + Kᵀ * lqr.R * K +
      lqr.gamma • ((lqr.A - lqr.B * K)ᵀ * P * (lqr.A - lqr.B * K)) := by
  have h := compute_lqr_P_solves lqr K hdet P hP
  rw [intermediate_M_mulVec] at h
  have h2 := vecM_inj h
  have hL : (compute_lqr_intermediate_results K lqr.A lqr.B lqr.Q lqr.R lqr.gamma).1 =
      lqr.Q + Kᵀ * lqr.R * K := rfl
  rw [hL] at h2
  exact sub_eq_iff_eq_add.mp h2

/-- compute_lqr_P succeeds when M is nonsingular, with the solved value. -/
theorem compute_lqr_P_of_det_ne_zero (lqr : LQR n m) (K : Matrix (Fin m) (Fin n) ℚ)
    (hdet : (compute_lqr_intermediate_results K lqr.A lqr.B lqr.Q lqr.R lqr.gamma).2.det ≠ 0) :
    compute_lqr_P lqr K =
      some (unvec ((matInv
        (compute_lqr_intermediate_results K lqr.A lqr.B lqr.Q lqr.R lqr.gamma).2).mulVec
        (vecM (compute_lqr_intermediate_results K lqr.A lqr.B lqr.Q lqr.R lqr.gamma).1))) := by
  simp only [compute_lqr_P]
  rw [if_neg hdet]

/-! ## Entry evaluation helpers for one-dimensional instances -/

theorem fin_one_ext {X Y : Matrix (Fin 1) (Fin 1) ℚ} (h : X 0 0 = Y 0 0) : X = Y := by
  ext i j
  fin_cases i
  fin_cases j
  exact h

theorem e11_mul (X Y : Matrix (Fin 1) (Fin 1) ℚ) : (X * Y) 0 0 = X 0 0 * Y 0 0 := by
  simp [Matrix.mul_apply]

theorem e11_transpose (X : Matrix (Fin 1) (Fin 1) ℚ) : Xᵀ 0 0 = X 0 0 := rfl

theorem e11_one : (1 : Matrix (Fin 1) (Fin 1) ℚ) 0 0 = 1 := rfl

theorem e11_add (X Y : Matrix (Fin 1) (Fin 1) ℚ) : (X + Y) 0 0 = X 0 0 + Y 0 0 := rfl

theorem e11_sub (X Y : Matrix (Fin 1) (Fin 1) ℚ) : (X - Y) 0 0 = X 0 0 - Y 0 0 := rfl

theorem e11_smul (c : ℚ) (X : Matrix (Fin 1) (Fin 1) ℚ) : (c • X) 0 0 = c * X 0 0 := rfl

theorem e11_matInv (X : Matrix (Fin 1) (Fin 1) ℚ) : matInv X 0 0 = (X 0 0)⁻¹ := by
  simp only [matInv, Matrix.adjugate_fin_one, Matrix.det_fin_one]
  simp

/-! ## Evaluation of the concrete instance -/

theorem lqrEx_M_det :
    (compute_lqr_intermediate_results Kex lqrEx.A lqrEx.B lqrEx.Q lqrEx.R lqrEx.gamma).2.det =
      1 / 2 := by
  rw [Matrix.det_eq_elem_of_subsingleton _ ((0 : Fin 1), (0 : Fin 1))]
  norm_num [compute_lqr_intermediate_results, lqrEx, Kex, Matrix.kronecker,
    Matrix.kroneckerMap_apply, Matrix.sub_apply, Matrix.add_apply, Matrix.smul_apply,
    Matrix.one_apply, Matrix.transpose_apply, Matrix.mul_apply, Fin.sum_univ_one]

theorem lqrEx_Minv :
    matInv (compute_lqr_intermediate_results Kex lqrEx.A lqrEx.B lqrEx.Q lqrEx.R
      lqrEx.gamma).2 = (2 : ℚ) • 1 := by
  simp only [matInv]
  rw [lqrEx_M_det, Matrix.adjugate_subsingleton]
  norm_num

theorem lqrEx_P : compute_lqr_P lqrEx Kex = some Pex := by
  have hinv := lqrEx_Minv
  simp only [compute_lqr_P]
  rw [if_neg (by rw [lqrEx_M_det]; norm_num)]
  rw [hinv, Matrix.smul_mulVec_assoc, Matrix.one_mulVec]
  congr 1
  ext i j
  fin_cases i
  fin_cases j
  norm_num [unvec, vecM, Pex, compute_lqr_intermediate_results, lqrEx, Kex,
    Pi.smul_apply, Matrix.add_apply, Matrix.mul_apply, Matrix.transpose_apply,
    Fin.sum_univ_one]

/-! ## Claim theorems -/

/-- C1: for every problem and every gain K whose vectorized system matrix M
is nonsingular, the matrix P returned by compute_lqr_P satisfies the
discounted Lyapunov equation P = Q + Kᵀ R K + gamma (A − B K)ᵀ P (A − B K). -/
theorem lyapunov_consistency (lqr : LQR n m) (K : Matrix (Fin m) (Fin n) ℚ)
    (hdet : (compute_lqr_intermediate_results K lqr.A lqr.B lqr.Q lqr.R lqr.gamma).2.det ≠ 0)
    (P : Matrix (Fin n) (Fin n) ℚ) (hP : compute_lqr_P lqr K = some P) :
    P = lqr.Q + Kᵀ * lqr.R * K +
      lqr.gamma • ((lqr.A - lqr.B * K)ᵀ * P * (lqr.A - lqr.B * K)) :=
  lqr_P_fixed_point lqr K hdet P hP

/-- Witness for C1 at the concrete scalar instance. -/
theorem lyapunov_consistency_witness :
    compute_lqr_P lqrEx Kex = some Pex ∧
      Pex = lqrEx.Q + Kexᵀ * lqrEx.R * Kex +
        lqrEx.gamma • ((lqrEx.A - lqrEx.B * Kex)ᵀ * Pex * (lqrEx.A - lqrEx.B * Kex)) :=
  ⟨lqrEx_P, lyapunov_consistency lqrEx Kex (by rw [lqrEx_M_det]; norm_num) Pex lqrEx_P⟩

/-- C6: when Q and R are symmetric and the system matrix M is nonsingular,
the P returned by compute_lqr_P is symmetric. -/
theorem lqr_P_symmetric (lqr : LQR n m) (K : Matrix (Fin m) (Fin n) ℚ)
    (hQ : lqr.Qᵀ = lqr.Q) (hR : lqr.Rᵀ = lqr.R)
    (hdet : (compute_lqr_intermediate_results K lqr.A lqr.B lqr.Q lqr.R lqr.gamma).2.det ≠ 0)
    (P : Matrix (Fin n) (Fin n) ℚ) (hP : compute_lqr_P lqr K = some P) :
    Pᵀ = P := by
  have hsolve := compute_lqr_P_solves lqr K hdet P hP
  have hfix := lqr_P_fixed_point lqr K hdet P hP
  have hfixT : Pᵀ = lqr.Q + Kᵀ * lqr.R * K +
      lqr.gamma • ((lqr.A - lqr.B * K)ᵀ * Pᵀ * (lqr.A - lqr.B * K)) := by
    conv_lhs => rw [hfix]
    simp only [Matrix.transpose_add, Matrix.transpose_smul, Matrix.transpose_mul,
      Matrix.transpose_transpose, hQ, hR, Matrix.mul_assoc]
  have h2 : (compute_lqr_intermediate_results K lqr.A lqr.B lqr.Q lqr.R
      lqr.gamma).2.mulVec (vecM Pᵀ) =
      (compute_lqr_intermediate_results K lqr.A lqr.B lqr.Q lqr.R lqr.gamma).2.mulVec
        (vecM P) := by
    rw [intermediate_M_mulVec, hsolve]
    exact congrArg vecM (sub_eq_iff_eq_add.mpr hfixT)
  exact vecM_inj (mulVec_inj_of_det_ne_zero hdet h2)

/-- Witness for C6 at the concrete scalar instance. -/
theorem lqr_P_symmetric_witness : Pexᵀ = Pex :=
  lqr_P_symmetric lqrEx Kex (by decide) (by decide)
    (by rw [lqrEx_M_det]; norm_num) Pex lqrEx_P

/-- C5: at zero noise covariance the LQG value function coincides exactly
with the LQR value function. -/
theorem lqg_V_zero_noise (x : Fin n → ℚ) (lqr : LQR n m) (K : Matrix (Fin m) (Fin n) ℚ)
    (hdet : (compute_lqr_intermediate_results K lqr.A lqr.B lqr.Q lqr.R lqr.gamma).2.det ≠ 0) :
    compute_lqg_V x lqr K 0 = compute_lqr_V x lqr K := by
  obtain ⟨P, hP⟩ : ∃ P, compute_lqr_P lqr K = some P :=
    ⟨_, compute_lqr_P_of_det_ne_zero lqr K hdet⟩
  rw [compute_lqg_V, compute_lqr_V, hP]
  simp [Matrix.zero_mul, Matrix.trace_zero]

/-- Witness for C5 at the concrete scalar instance. -/
theorem lqg_V_zero_noise_witness :
    compute_lqg_V ![1] lqrEx Kex 0 = compute_lqr_V ![1] lqrEx Kex :=
  lqg_V_zero_noise ![1] lqrEx Kex (by rw [lqrEx_M_det]; norm_num)

/-- C9: at zero noise covariance the LQG action-value function coincides
exactly with the LQR action-value function (the additional term vanishes). -/
theorem lqg_Q_zero_noise (z : Fin n ⊕ Fin m → ℚ) (lqr : LQR n m)
    (K : Matrix (Fin m) (Fin n) ℚ)
    (hdet : (compute_lqr_intermediate_results K lqr.A lqr.B lqr.Q lqr.R lqr.gamma).2.det ≠ 0) :
    compute_lqg_Q z lqr K 0 = compute_lqr_Q z lqr K := by
  obtain ⟨P, hP⟩ : ∃ P, compute_lqr_P lqr K = some P :=
    ⟨_, compute_lqr_P_of_det_ne_zero lqr K hdet⟩
  rw [compute_lqg_Q, compute_lqr_Q, compute_lqr_Q_matrix, compute_lqg_Q_additional_term, hP]
  simp [Matrix.zero_mul, Matrix.trace_zero]

/-- Witness for C9 at the concrete scalar instance. -/
theorem lqg_Q_zero_noise_witness :
    compute_lqg_Q (Sum.elim ![1] ![1]) lqrEx Kex 0 =
      compute_lqr_Q (Sum.elim ![1] ![1]) lqrEx Kex :=
  lqg_Q_zero_noise (Sum.elim ![1] ![1]) lqrEx Kex (by rw [lqrEx_M_det]; norm_num)

/-- When every gain inverse along the way exists, the solve_lqr_linear loop
computes the pair (riccatiP k, gain of riccatiP k). -/
theorem riccati_loop_eq (lqr : LQR n m) (k : ℕ)
    (h : ∀ j ≤ k, (lqr.R + lqr.gamma • (lqr.Bᵀ * riccatiP lqr j * lqr.B)).det ≠ 0) :
    riccati_loop lqr.A lqr.B lqr.Q lqr.R lqr.gamma k =
      some (riccatiP lqr k,
        riccati_gain_val (riccatiP lqr k) lqr.A lqr.B lqr.R lqr.gamma) := by
  induction k with
  | zero =>
    have h0 := h 0 le_rfl
    simp only [riccatiP] at h0
    simp only [riccati_loop, compute_riccati_gain, riccatiP]
    rw [if_neg h0]
    rfl
  | succ k ih =>
    have hk : ∀ j ≤ k, (lqr.R + lqr.gamma • (lqr.Bᵀ * riccatiP lqr j * lqr.B)).det ≠ 0 :=
      fun j hj => h j (hj.trans (Nat.le_succ k))
    have hk1 := h (k + 1) le_rfl
    simp only [riccati_loop]
    rw [ih hk]
    simp only [Option.some_bind]
    have hstep : compute_riccati_rhs lqr.A lqr.B lqr.Q lqr.R lqr.gamma
        (riccati_gain_val (riccatiP lqr k) lqr.A lqr.B lqr.R lqr.gamma) (riccatiP lqr k) =
        riccatiP lqr (k + 1) := rfl
    rw [hstep]
    simp only [compute_riccati_gain]
    rw [if_neg hk1]
    rfl

/-- C2: solve_lqr_linear performs exactly max_iterations Riccati updates
starting from P0 = I, with the gain recomputed from the current P inside
each update, and returns the gain computed from the final P. -/
theorem solve_lqr_linear_spec (lqr : LQR n m) (max_iterations : ℕ)
    (h : ∀ j ≤ max_iterations,
      (lqr.R + lqr.gamma • (lqr.Bᵀ * riccatiP lqr j * lqr.B)).det ≠ 0) :
    solve_lqr_linear lqr max_iterations =
      some (lqr.gamma •
        (matInv (lqr.R + lqr.gamma • (lqr.Bᵀ * riccatiP lqr max_iterations * lqr.B)) *
          lqr.Bᵀ * riccatiP lqr max_iterations * lqr.A)) := by
  rw [solve_lqr_linear, riccati_loop_eq lqr max_iterations h]
  rfl

/-- The second Riccati iterate of the concrete scalar instance. -/
theorem riccatiP_lqrEx_one : riccatiP lqrEx 1 = !![4 / 3] := by
  have hG : riccati_gain_val (1 : Matrix (Fin 1) (Fin 1) ℚ) lqrEx.A lqrEx.B lqrEx.R
      lqrEx.gamma = !![1 / 3] := by
    apply fin_one_ext
    simp only [riccati_gain_val, e11_smul, e11_mul, e11_matInv, e11_add, e11_transpose,
      e11_one]
    norm_num [lqrEx]
  have h1 : riccatiP lqrEx 1 = compute_riccati_rhs lqrEx.A lqrEx.B lqrEx.Q lqrEx.R
      lqrEx.gamma (riccati_gain_val (1 : Matrix (Fin 1) (Fin 1) ℚ) lqrEx.A lqrEx.B lqrEx.R
        lqrEx.gamma) 1 := rfl
  rw [h1, hG]
  apply fin_one_ext
  simp only [compute_riccati_rhs, e11_add, e11_sub, e11_smul, e11_mul, e11_transpose,
    e11_one]
  norm_num [lqrEx]

/-- Witness for C2 at the concrete scalar instance with one iteration. -/
theorem solve_lqr_linear_spec_witness :
    solve_lqr_linear lqrEx 1 =
      some (lqrEx.gamma •
        (matInv (lqrEx.R + lqrEx.gamma • (lqrEx.Bᵀ * riccatiP lqrEx 1 * lqrEx.B)) *
          lqrEx.Bᵀ * riccatiP lqrEx 1 * lqrEx.A)) := by
  apply solve_lqr_linear_spec lqrEx 1
  intro j hj
  interval_cases j
  · rw [show riccatiP lqrEx 0 = 1 from rfl, Matrix.det_fin_one]
    simp only [e11_add, e11_smul, e11_mul, e11_transpose, e11_one]
    norm_num [lqrEx]
  · rw [riccatiP_lqrEx_one, Matrix.det_fin_one]
    simp only [e11_add, e11_smul, e11_mul, e11_transpose]
    norm_num [lqrEx]

/-- C10: with R + gamma Bᵀ B invertible, a call with a zero iteration budget
succeeds and returns the gain computed from the identity initialization. -/
theorem solve_lqr_linear_zero_iterations (lqr : LQR n m)
    (h : (lqr.R + lqr.gamma • (lqr.Bᵀ * lqr.B)).det ≠ 0) :
    solve_lqr_linear lqr 0 =
      some (lqr.gamma •
        (matInv (lqr.R + lqr.gamma • (lqr.Bᵀ * lqr.B)) * lqr.Bᵀ * lqr.A)) := by
  simp only [solve_lqr_linear, riccati_loop, compute_riccati_gain, riccati_gain_val,
    Matrix.mul_one]
  rw [if_neg h]
  rfl

/-- Witness for C10 at the concrete scalar instance. -/
theorem solve_lqr_linear_zero_iterations_witness :
    solve_lqr_linear lqrEx 0 =
      some (lqrEx.gamma •
        (matInv (lqrEx.R + lqrEx.gamma • (lqrEx.Bᵀ * lqrEx.B)) * lqrEx.Bᵀ * lqrEx.A)) := by
  apply solve_lqr_linear_zero_iterations lqrEx
  rw [Matrix.det_fin_one]
  simp only [e11_add, e11_smul, e11_mul, e11_transpose]
  norm_num [lqrEx]

/-- The solve_lqr_linear loop succeeds exactly when every gain inverse along
the iteration path exists. -/
theorem riccati_loop_isSome_iff (lqr : LQR n m) (k : ℕ) :
    (riccati_loop lqr.A lqr.B lqr.Q lqr.R lqr.gamma k).isSome = true ↔
      ∀ j ≤ k, (lqr.R + lqr.gamma • (lqr.Bᵀ * riccatiP lqr j * lqr.B)).det ≠ 0 := by
  constructor
  · induction k with
    | zero =>
      intro hs j hj
      rw [Nat.le_zero.mp hj]
      simp only [riccati_loop, compute_riccati_gain] at hs
      by_contra hdet
      rw [show riccatiP lqr 0 = 1 from rfl] at hdet
      rw [if_pos hdet] at hs
      simp at hs
    | succ k ih =>
      intro hs j hj
      have hsk : (riccati_loop lqr.A lqr.B lqr.Q lqr.R lqr.gamma k).isSome = true := by
        simp only [riccati_loop] at hs
        cases hl : riccati_loop lqr.A lqr.B lqr.Q lqr.R lqr.gamma k with
        | none =>
          rw [hl] at hs
          simp at hs
        | some PK => simp
      have hall := ih hsk
      rcases Nat.le_add_one_iff.mp hj with hj' | hj1
      · exact hall j hj'
      · subst hj1
        simp only [riccati_loop] at hs
        rw [riccati_loop_eq lqr k hall] at hs
        simp only [Option.some_bind] at hs
        rw [show compute_riccati_rhs lqr.A lqr.B lqr.Q lqr.R lqr.gamma
            (riccati_gain_val (riccatiP lqr k) lqr.A lqr.B lqr.R lqr.gamma)
            (riccatiP lqr k) = riccatiP lqr (k + 1) from rfl] at hs
        simp only [compute_riccati_gain] at hs
        by_contra hdet
        rw [if_pos hdet] at hs
        simp at hs
  · intro hall
    rw [riccati_loop_eq lqr k hall]
    rfl

/-- C8: every solver entry point signals an error exactly when the inverse
or linear solve inside it is singular, and the error is propagated to the
caller unmodified (no fallback result); when everything is nonsingular, no
error is raised. -/
theorem singular_error_propagation (lqr : LQR n m) (K : Matrix (Fin m) (Fin n) ℚ)
    (x : Fin n → ℚ) (z : Fin n ⊕ Fin m → ℚ) (Sg : Matrix (Fin m) (Fin m) ℚ)
    (max_iterations : ℕ) :
    ((compute_lqr_P lqr K).isSome = true ↔
      (compute_lqr_intermediate_results K lqr.A lqr.B lqr.Q lqr.R lqr.gamma).2.det ≠ 0) ∧
    ((compute_lqr_V x lqr K).isSome = true ↔
      (compute_lqr_intermediate_results K lqr.A lqr.B lqr.Q lqr.R lqr.gamma).2.det ≠ 0) ∧
    ((compute_lqg_V x lqr K Sg).isSome = true ↔
      (compute_lqr_intermediate_results K lqr.A lqr.B lqr.Q lqr.R lqr.gamma).2.det ≠ 0) ∧
    ((compute_lqr_Q z lqr K).isSome = true ↔
      (compute_lqr_intermediate_results K lqr.A lqr.B lqr.Q lqr.R lqr.gamma).2.det ≠ 0) ∧
    ((compute_lqg_Q z lqr K Sg).isSome = true ↔
      (compute_lqr_intermediate_results K lqr.A lqr.B lqr.Q lqr.R lqr.gamma).2.det ≠ 0) ∧
    ((compute_lqg_gradient x lqr K Sg).isSome = true ↔
      (compute_lqr_intermediate_results K lqr.A lqr.B lqr.Q lqr.R lqr.gamma).2.det ≠ 0) ∧
    ((solve_lqr_linear lqr max_iterations).isSome = true ↔
      ∀ j ≤ max_iterations,
        (lqr.R + lqr.gamma • (lqr.Bᵀ * riccatiP lqr j * lqr.B)).det ≠ 0) := by
  have hP : (compute_lqr_P lqr K).isSome = true ↔
      (compute_lqr_intermediate_results K lqr.A lqr.B lqr.Q lqr.R lqr.gamma).2.det ≠ 0 := by
    simp only [compute_lqr_P]
    by_cases h : (compute_lqr_intermediate_results K lqr.A lqr.B lqr.Q lqr.R
        lqr.gamma).2.det = 0
    · rw [if_pos h]
      simp [h]
    · rw [if_neg h]
      simp [h]
  refine ⟨hP, ?_, ?_, ?_, ?_, ?_, ?_⟩
  · rw [← hP, compute_lqr_V]
    cases compute_lqr_P lqr K <;> simp
  · rw [← hP, compute_lqg_V]
    cases compute_lqr_P lqr K <;> simp
  · rw [← hP, compute_lqr_Q, compute_lqr_Q_matrix]
    cases compute_lqr_P lqr K <;> simp
  · rw [← hP, compute_lqg_Q, compute_lqr_Q_matrix, compute_lqg_Q_additional_term]
    cases compute_lqr_P lqr K <;> simp
  · simp only [compute_lqg_gradient]
    by_cases h : (compute_lqr_intermediate_results K lqr.A lqr.B lqr.Q lqr.R
        lqr.gamma).2.det = 0
    · rw [if_pos h]
      simp [h]
    · rw [if_neg h]
      simp [h]
  · rw [solve_lqr_linear]
    have hmap : (Option.map Prod.snd
        (riccati_loop lqr.A lqr.B lqr.Q lqr.R lqr.gamma max_iterations)).isSome =
        (riccati_loop lqr.A lqr.B lqr.Q lqr.R lqr.gamma max_iterations).isSome := by
      cases riccati_loop lqr.A lqr.B lqr.Q lqr.R lqr.gamma max_iterations <;> rfl
    rw [hmap]
    exact riccati_loop_isSome_iff lqr max_iterations

/-- Moving a matrix applied inside the left slot of a dot product to its
transpose acting on the right slot. -/
theorem mulVec_dotProduct_swap {a b : ℕ} (K : Matrix (Fin a) (Fin b) ℚ)
    (x : Fin b → ℚ) (w : Fin a → ℚ) : K.mulVec x ⬝ᵥ w = x ⬝ᵥ Kᵀ.mulVec w := by
  simp only [Matrix.mulVec, Matrix.dotProduct, Matrix.transpose_apply, Finset.sum_mul,
    Finset.mul_sum]
  rw [Finset.sum_comm]
  exact Finset.sum_congr rfl fun i _ => Finset.sum_congr rfl fun j _ => by ring

/-- Quadratic form of the block Q matrix at the policy action −Kx equals the
quadratic form of the Lyapunov combination. -/
theorem q_block_eval (lqr : LQR n m) (K : Matrix (Fin m) (Fin n) ℚ)
    (P : Matrix (Fin n) (Fin n) ℚ) (x : Fin n → ℚ) :
    Sum.elim x (-(K.mulVec x)) ⬝ᵥ
      (Matrix.fromBlocks (lqr.Q + lqr.gamma • (lqr.Aᵀ * P * lqr.A))
        (lqr.gamma • (lqr.Aᵀ * P * lqr.B)) (lqr.gamma • (lqr.Bᵀ * P * lqr.A))
        (lqr.R + lqr.gamma • (lqr.Bᵀ * P * lqr.B))).mulVec
        (Sum.elim x (-(K.mulVec x))) =
      x ⬝ᵥ (lqr.Q + Kᵀ * lqr.R * K +
        lqr.gamma • ((lqr.A - lqr.B * K)ᵀ * P * (lqr.A - lqr.B * K))).mulVec x := by
  rw [Matrix.fromBlocks_mulVec, Matrix.sum_elim_dotProduct_sum_elim]
  simp only [Sum.elim_comp_inl, Sum.elim_comp_inr, Matrix.mulVec_neg,
    Matrix.dotProduct_neg, Matrix.neg_dotProduct,
    Matrix.dotProduct_add, Matrix.add_mulVec, Matrix.smul_mulVec_assoc,
    Matrix.dotProduct_smul, Matrix.mulVec_mulVec, neg_neg, smul_eq_mul,
    mulVec_dotProduct_swap, Matrix.transpose_smul, Matrix.transpose_add,
    Matrix.transpose_mul, Matrix.transpose_transpose, Matrix.transpose_sub,
    Matrix.sub_mulVec]
  simp only [Matrix.mul_sub, Matrix.sub_mul, Matrix.mul_add, Matrix.add_mul,
    Matrix.smul_mul, Matrix.mul_smul, Matrix.add_mulVec, Matrix.sub_mulVec,
    Matrix.dotProduct_add, Matrix.dotProduct_sub, Matrix.smul_mulVec_assoc,
    Matrix.dotProduct_smul, smul_eq_mul, Matrix.mul_assoc]
  ring

/-- C4: evaluating the action-value function at the stacked vector
z = [x; −Kx] reproduces the state value at x. -/
theorem value_q_consistency (x : Fin n → ℚ) (lqr : LQR n m)
    (K : Matrix (Fin m) (Fin n) ℚ)
    (hdet : (compute_lqr_intermediate_results K lqr.A lqr.B lqr.Q lqr.R lqr.gamma).2.det ≠ 0) :
    compute_lqr_Q (Sum.elim x (-(K.mulVec x))) lqr K = compute_lqr_V x lqr K := by
  obtain ⟨P, hP⟩ : ∃ P, compute_lqr_P lqr K = some P :=
    ⟨_, compute_lqr_P_of_det_ne_zero lqr K hdet⟩
  have hfix := lqr_P_fixed_point lqr K hdet P hP
  rw [compute_lqr_Q, compute_lqr_Q_matrix, compute_lqr_V, hP]
  simp only [Option.map_some']
  congr 1
  rw [q_block_eval lqr K P x, ← hfix]

/-- Witness for C4 at the concrete scalar instance. -/
theorem value_q_consistency_witness :
    compute_lqr_Q (Sum.elim ![1] (-(Kex.mulVec ![1]))) lqrEx Kex =
      compute_lqr_V ![1] lqrEx Kex :=
  value_q_consistency ![1] lqrEx Kex (by rw [lqrEx_M_det]; norm_num)

/-- C3: each component of the vector returned by compute_lqg_gradient (one
per entry of K, in row-major order) is exactly the implicitly differentiated
expression stated in the specification. -/
theorem lqg_gradient_spec (x : Fin n → ℚ) (lqr : LQR n m)
    (K : Matrix (Fin m) (Fin n) ℚ) (Sg : Matrix (Fin m) (Fin m) ℚ)
    (hdet : (compute_lqr_intermediate_results K lqr.A lqr.B lqr.Q lqr.R lqr.gamma).2.det ≠ 0)
    (g : Fin m × Fin n → ℚ) (hg : compute_lqg_gradient x lqr K Sg = some g)
    (i : Fin m × Fin n) : g i = grad_component_spec x lqr K Sg i := by
  simp only [compute_lqg_gradient] at hg
  rw [if_neg hdet] at hg
  obtain rfl := Option.some_inj.mp hg
  have hdK : (Matrix.of fun p q => if p = i.1 ∧ q = i.2 then (1 : ℚ) else 0) =
      Matrix.stdBasisMatrix i.1 i.2 1 := by
    have hiff : ∀ (p : Fin m) (q : Fin n), (p = i.1 ∧ q = i.2) ↔ (i.1 = p ∧ i.2 = q) :=
      fun p q =>
        Iff.intro (fun h => ⟨h.1.symm, h.2.symm⟩) (fun h => ⟨h.1.symm, h.2.symm⟩)
    ext p q
    simp only [Matrix.of_apply, Matrix.stdBasisMatrix, hiff p q]
  simp only [grad_component_spec, compute_lqr_intermediate_results_diff, hdK,
    Matrix.neg_mul, Matrix.neg_mulVec]

/-- Witness for C3 at the concrete scalar instance. -/
theorem lqg_gradient_spec_witness :
    compute_lqg_gradient ![1] lqrEx Kex !![1] = some gradEx ∧
      gradEx (0, 0) = grad_component_spec ![1] lqrEx Kex !![1] (0, 0) := by
  have hdet :
      (compute_lqr_intermediate_results Kex lqrEx.A lqrEx.B lqrEx.Q lqrEx.R
        lqrEx.gamma).2.det ≠ 0 := by
    rw [lqrEx_M_det]
    norm_num
  have hsome : compute_lqg_gradient ![1] lqrEx Kex !![1] = some gradEx := by
    simp only [compute_lqg_gradient]
    rw [if_neg hdet]
    congr 1
    funext p
    rw [Subsingleton.elim p ((0 : Fin 1), (0 : Fin 1))]
    rw [lqrEx_Minv]
    norm_num [gradEx, compute_lqr_intermediate_results, compute_lqr_intermediate_results_diff,
      Matrix.mulVec, Matrix.dotProduct, Fintype.sum_prod_type, Fin.sum_univ_one,
      Matrix.mul_apply, Matrix.trace, Matrix.diag, vecM, unvec, Matrix.kronecker,
      Matrix.kroneckerMap_apply, Matrix.transpose_apply, Matrix.smul_apply,
      Matrix.one_apply, Matrix.add_apply, Matrix.sub_apply, Matrix.neg_apply,
      Pi.add_apply, Pi.smul_apply, Pi.neg_apply, Matrix.of_apply, lqrEx, Kex, smul_eq_mul,
      Finset.filter_eq', Finset.mem_singleton, Finset.card_singleton]
  exact ⟨hsome, lqg_gradient_spec ![1] lqrEx Kex !![1] hdet gradEx hsome (0, 0)⟩

/-- C7 counterexample: at a concrete dimensionally inconsistent problem
(A, Q 1×1 but B 2×1), the entry stage _parse_lqr succeeds and returns the
matrices unchecked — no ShapeMismatch error is reported at entry — and the
failure instead arises later, inside the first inconsistent matrix product
of the numerical pipeline (Bᵀ @ P in the gain computation). -/
theorem shape_mismatch_not_checked_at_entry :
    badLqr.A.rows = 1 ∧ badLqr.A.cols = 1 ∧ badLqr.Q.rows = 1 ∧ badLqr.B.rows = 2 ∧
      parse_lqr_dyn badLqr = (badLqr.A, badLqr.B, badLqr.Q, badLqr.R, badLqr.gamma) ∧
      solve_lqr_linear_dyn badLqr 0 = none ∧
      dMul (DMat.T badLqr.B) (dEye badLqr.Q.rows) = none :=
  ⟨rfl, rfl, rfl, rfl, rfl, rfl, rfl⟩

/-- C7 amended: no shape validation is performed at entry — _parse_lqr
returns the problem attributes unchecked for every input, and a
dimensionally inconsistent call proceeds into the numerical pipeline, where
the first incompatible matrix product raises the error. -/
theorem no_entry_shape_validation :
    (∀ lqr : LQRDyn, parse_lqr_dyn lqr = (lqr.A, lqr.B, lqr.Q, lqr.R, lqr.gamma)) ∧
      solve_lqr_linear_dyn badLqr 0 = none ∧
      dMul (DMat.T badLqr.B) (dEye badLqr.Q.rows) = none :=
  ⟨fun _ => rfl, rfl, rfl⟩

end LqrSolver
